import Mathlib

/-!
# Verification of the ast-grep match engine core

A shallow embedding of the rule-matching core of the repository
(`crates/core/src/meta_var.rs`, `crates/core/src/match_tree.rs`,
`crates/core/src/replacer.rs`, `crates/config/src/relational_rule/stop_by.rs`,
`crates/config/src/rule.rs`) together with proofs about the embedded
definitions.

Modelling conventions:
* Rust `&str` values are modelled as `List Char` (all the string operations
  used by the embedded code are `char`-aligned, so the char-list view is
  faithful).
* Rust `HashMap` is modelled as an association list with key-replacing
  insertion; iteration of the map corresponds to folding over the list.
* Rust functions taking `&mut MetaVarEnv` and returning `Option<T>` are
  modelled as state-passing functions returning `Option T × MetaVarEnv`,
  so that mutations performed before a failure are preserved, exactly as
  with the `&mut` reference in the source.
* The `Language` trait object only supplies the meta character to the code
  embedded here; it is threaded through as an explicit `mc : Char` argument.
-/

namespace AstGrep

/-- A concrete syntax tree node, the read-only view used by the matcher
(`crates/core/src/node.rs`): kind id, source text, named flag and children. -/
inductive Node where
  | node (kind_id : Nat) (text : List Char) (named : Bool) (children : List Node)

/-- `Node::kind_id` (node.rs). -/
def Node.kind_id : Node → Nat
  | .node k _ _ _ => k

/-- `Node::text` (node.rs). -/
def Node.text : Node → List Char
  | .node _ t _ _ => t

/-- `Node::is_named` (node.rs). -/
def Node.is_named : Node → Bool
  | .node _ _ b _ => b

/-- `Node::children` (node.rs). -/
def Node.children : Node → List Node
  | .node _ _ _ cs => cs

/-- Modelled from the spec: `is_named_leaf` is called by `match_tree.rs` and
`replacer.rs` but is not defined in any file under `src/`; spec §4.B defines
it as "no children and named". -/
def Node.is_named_leaf (n : Node) : Bool := n.is_named && n.children.isEmpty

mutual
/-- Structure size of a node, used as a termination measure. -/
def Node.size : Node → Nat
  | .node _ _ _ cs => 1 + size_list cs

/-- Total size of a list of nodes. -/
def size_list : List Node → Nat
  | [] => 0
  | c :: cs => 1 + Node.size c + size_list cs
end

theorem Node.size_pos (n : Node) : 1 ≤ n.size := by
  cases n with
  | node k t b cs => simp [Node.size]

theorem size_children_lt (n : Node) : size_list n.children < n.size := by
  cases n with
  | node k t b cs => simp [Node.size, Node.children]

/-! ## Association-list model of `HashMap` -/

/-- `HashMap::get`: first binding of the key, if any. -/
def assoc_lookup {α : Type} (key : List Char) : List (List Char × α) → Option α
  | [] => none
  | (k, v) :: rest => if k = key then some v else assoc_lookup key rest

/-- `HashMap::insert`: replace the binding of the key, or append it. -/
def assoc_insert {α : Type} (key : List Char) (val : α) :
    List (List Char × α) → List (List Char × α)
  | [] => [(key, val)]
  | (k, v) :: rest =>
      if k = key then (key, val) :: rest else (k, v) :: assoc_insert key val rest

/-! ## Metavariables (`crates/core/src/meta_var.rs`) -/

/-- `MetaVariable` (meta_var.rs, lines 127-137). -/
inductive MetaVariable where
  /-- `$A` for captured meta var -/
  | named (id : List Char)
  /-- `$_` for non-captured meta var -/
  | anonymous
  /-- `$$$` for non-captured ellipsis -/
  | ellipsis
  /-- `$$$A` for captured ellipsis -/
  | namedEllipsis (id : List Char)
deriving DecidableEq, Repr

/-- `is_valid_meta_var_char` (meta_var.rs, lines 224-226): `'A'..='Z' | '_'`. -/
def is_valid_meta_var_char (c : Char) : Bool :=
  ('A' ≤ c && c ≤ 'Z') || c = '_'

/-- `str::strip_prefix` with the three-character ellipsis string
`meta_char × 3` (meta_var.rs, line 189). -/
def stripEllipsis (src : List Char) (mc : Char) : Option (List Char) :=
  match src with
  | a :: b :: c :: t => if a = mc ∧ b = mc ∧ c = mc then some t else none
  | _ => none

/-- `str::starts_with('_')` on a char list. -/
def starts_with_underscore : List Char → Bool
  | '_' :: _ => true
  | _ => false

/-- `extract_meta_var` (meta_var.rs, lines 183-212). -/
def extract_meta_var (src : List Char) (meta_char : Char) : Option MetaVariable :=
  if src = List.replicate 3 meta_char then some .ellipsis
  else
    match stripEllipsis src meta_char with
    | some trimmed =>
        if ¬ (trimmed.all is_valid_meta_var_char) then none
        else if starts_with_underscore trimmed then some .ellipsis
        else some (.namedEllipsis trimmed)
    | none =>
        match src with
        | [] => none
        | c :: trimmed =>
            if c ≠ meta_char then none
            else if ¬ (trimmed.all is_valid_meta_var_char) then none
            else if starts_with_underscore trimmed then some .anonymous
            else some (.named trimmed)

/-- `split_first_meta_var` (meta_var.rs, lines 214-222). The Rust function
asserts that `src` starts with `meta_char`; the assertion failure is modelled
as `none`. On the happy path it splits the text after the meta character at
the first character that is not `[A-Z_]`. -/
def split_first_meta_var (src : List Char) (meta_char : Char) :
    Option (List Char × List Char) :=
  match src with
  | [] => none
  | c :: rest =>
      if c = meta_char then
        some (rest.takeWhile is_valid_meta_var_char,
              rest.dropWhile is_valid_meta_var_char)
      else none

/-! ## Structural node equality (`crates/core/src/match_tree.rs`) -/

mutual
/-- `does_node_match_exactly` (match_tree.rs, lines 255-270): equal kind id;
for a named leaf, equal text; otherwise equal child count and pairwise
exactly-matching children. -/
def does_node_match_exactly (goal candidate : Node) : Bool :=
  if goal.kind_id ≠ candidate.kind_id then false
  else if goal.is_named_leaf then decide (goal.text = candidate.text)
  else if goal.children.length ≠ candidate.children.length then false
  else does_nodes_match_exactly goal.children candidate.children
termination_by (Node.size goal, 0)
decreasing_by
  simp [Prod.lex_def]
  exact size_children_lt goal

/-- `zip(...).all(...)` over the two child lists (match_tree.rs, lines
267-269); `zip` stops at the shorter list. -/
def does_nodes_match_exactly : List Node → List Node → Bool
  | g :: gs, c :: cs => does_node_match_exactly g c && does_nodes_match_exactly gs cs
  | _, _ => true
termination_by gs _ => (size_list gs, 1)
decreasing_by
  · simp [Prod.lex_def, size_list]
    omega
  · simp [Prod.lex_def, size_list]
end

/-! ## Capture environment (`crates/core/src/meta_var.rs`) -/

/-- `MetaVarEnv` (meta_var.rs, lines 11-15): single-node captures and
multi-node (ellipsis) captures. -/
structure MetaVarEnv where
  single_matched : List (List Char × Node)
  multi_matched : List (List Char × List Node)

/-- The empty environment, `MetaVarEnv::new` (meta_var.rs, lines 18-23). -/
def MetaVarEnv.new : MetaVarEnv := ⟨[], []⟩

/-- `MetaVarEnv::match_variable` (meta_var.rs, lines 91-96): an id bound in
the single-capture map only re-matches a structurally identical node. -/
def MetaVarEnv.match_variable (env : MetaVarEnv) (id : List Char)
    (candidate : Node) : Bool :=
  match assoc_lookup id env.single_matched with
  | some m => does_node_match_exactly m candidate
  | none => true

/-- `MetaVarEnv::insert` (meta_var.rs, lines 25-31). -/
def MetaVarEnv.insert (env : MetaVarEnv) (id : List Char) (ret : Node) :
    Option MetaVarEnv :=
  if env.match_variable id ret then
    some { env with single_matched := assoc_insert id ret env.single_matched }
  else none

/-- `MetaVarEnv::insert_multi` (meta_var.rs, lines 33-40): always succeeds,
overwriting any previous multi capture. -/
def MetaVarEnv.insert_multi (env : MetaVarEnv) (id : List Char)
    (ret : List Node) : Option MetaVarEnv :=
  some { env with multi_matched := assoc_insert id ret env.multi_matched }

/-- `MetaVarEnv::get_match` (meta_var.rs, lines 50-52). -/
def MetaVarEnv.get_match (env : MetaVarEnv) (var : List Char) : Option Node :=
  assoc_lookup var env.single_matched

/-- `MetaVarEnv::match_constraints` (meta_var.rs, lines 70-79). The matcher
map `MetaVarMatchers` stores `MetaVarMatcher` values whose `matches` method
dispatches into `matcher.rs` (not under `src/`); each matcher is abstracted
here as the boolean predicate computed by `MetaVarMatcher::matches`. -/
def MetaVarEnv.match_constraints (env : MetaVarEnv)
    (var_matchers : List (List Char × (Node → Bool))) : Bool :=
  env.single_matched.all fun p =>
    match assoc_lookup p.1 var_matchers with
    | some m => m p.2
    | none => true

/-! ## The tree matcher (`crates/core/src/match_tree.rs`)

The `Language` trait supplies `extract_meta_var` from the node text and the
language's meta character; the meta character is passed as `mc` below. -/

/-- `extract_var_from_node` (match_tree.rs, lines 272-275). -/
def extract_var_from_node (mc : Char) (goal : Node) : Option MetaVariable :=
  extract_meta_var goal.text mc

/-- `try_get_ellipsis_mode` (match_tree.rs, lines 40-46); the Rust
`Result<Option<String>, ()>` is modelled as `Option (Option (List Char))`
(`some none` = anonymous ellipsis, `some (some n)` = named ellipsis,
`none` = not an ellipsis). -/
def try_get_ellipsis_mode (mc : Char) (node : Node) :
    Option (Option (List Char)) :=
  match extract_var_from_node mc node with
  | some .ellipsis => some none
  | some (.namedEllipsis n) => some (some n)
  | _ => none

/-- `update_ellipsis_env` (match_tree.rs, lines 48-61): for a named ellipsis,
extend the accumulated nodes with the remaining candidates and keep all but
the trailing `skipped_anonymous` ones (`drain` after a saturating
subtraction). -/
def update_ellipsis_env (optional_name : Option (List Char))
    (matched : List Node) (env : MetaVarEnv) (cand_children : List Node)
    (skipped_anonymous : Nat) : MetaVarEnv :=
  match optional_name with
  | none => env
  | some name =>
      let matched := matched ++ cand_children
      let skipped := matched.length - skipped_anonymous
      ((env.insert_multi name (matched.take skipped)).getD env)

/-- `match_leaf_meta_var` (match_tree.rs, lines 5-38). This snapshot's
`MetaVariable` enum (meta_var.rs) carries no extra `named` flag, so the
`named && !candidate.is_named()` guards of the newer enum variants have no
counterpart here; `Ellipsis` keeps the release behaviour of the
`debug_assert!` branch (return the candidate). -/
def match_leaf_meta_var (mc : Char) (goal candidate : Node)
    (env : MetaVarEnv) : Option Node × MetaVarEnv :=
  match extract_var_from_node mc goal with
  | none => (none, env)
  | some (.named name) =>
      match env.insert name candidate with
      | none => (none, env)
      | some env1 => (some candidate, env1)
  | some .anonymous => (some candidate, env)
  | some .ellipsis => (some candidate, env)
  | some (.namedEllipsis name) =>
      match env.insert name candidate with
      | none => (none, env)
      | some env1 => (some candidate, env1)

mutual
/-- `match_node_non_recursive` (match_tree.rs, lines 139-170). The returned
pair carries the match result together with the environment, which the Rust
code mutates through `&mut` even on paths that end in failure. -/
def match_node_non_recursive (mc : Char) (goal candidate : Node)
    (env : MetaVarEnv) : Option Node × MetaVarEnv :=
  match (if goal.is_named_leaf then match_leaf_meta_var mc goal candidate env
         else (none, env)) with
  | (some matched, env1) => (some matched, env1)
  | (none, env1) =>
      if goal.kind_id ≠ candidate.kind_id then (none, env1)
      else if goal.is_named_leaf then
        if (extract_var_from_node mc goal).isSome then (none, env1)
        else if goal.text = candidate.text then (some candidate, env1)
        else (none, env1)
      else
        match match_nodes_non_recursive mc goal.children candidate.children env1 with
        | (some _, env2) => (some candidate, env2)
        | (none, env2) => (none, env2)
termination_by (Node.size goal, 0, 0)
decreasing_by
  have h1 := size_children_lt goal
  simp [Prod.lex_def]
  omega

/-- `match_nodes_non_recursive` (match_tree.rs, lines 172-253), entry: the
`cand_children.peek()?` on line 179 fails immediately when the candidate
sequence is empty, before the main loop is entered. -/
def match_nodes_non_recursive (mc : Char) (goals candidates : List Node)
    (env : MetaVarEnv) : Option Unit × MetaVarEnv :=
  match candidates with
  | [] => (none, env)
  | c :: cs => match_nodes_loop mc goals (c :: cs) env
termination_by (size_list goals, candidates.length, 6)
decreasing_by
  simp [Prod.lex_def]

/-- The main `loop` of `match_nodes_non_recursive` (match_tree.rs, lines
180-252). Invariants from the source: `candidates` is non-empty at the top
of every iteration; `goals` is non-empty except at the very first iteration,
where an empty `goals` makes `goal_children.peek().unwrap()` panic in Rust
(modelled as failure; no caller reaches it). -/
def match_nodes_loop (mc : Char) (goals candidates : List Node)
    (env : MetaVarEnv) : Option Unit × MetaVarEnv :=
  match goals with
  | [] => (none, env)
  | g :: gs =>
      match candidates with
      | [] => (none, env)
      | c :: cs =>
          match try_get_ellipsis_mode mc g with
          | some optional_name =>
              -- ellipsis branch (lines 182-238): drop the ellipsis goal and
              -- skip unnamed goals
              skip_loop mc optional_name 0 gs (c :: cs) env
          | none =>
              -- normal, non-ellipsis step (lines 240-251)
              loop_after_probe mc gs cs (match_node_non_recursive mc g c env)
termination_by (size_list goals, candidates.length, 0)
decreasing_by
  · -- enter the ellipsis branch: the ellipsis goal is dropped
    simp [Prod.lex_def, size_list]
  · -- probe the head goal against the head candidate
    simp [Prod.lex_def, size_list]
    omega
  · -- continue after the probe with the tails of both sequences
    simp [Prod.lex_def, size_list]

/-- Continuation of the normal step of the outer loop (match_tree.rs, lines
240-251), given the result of `match_node_non_recursive` on the two heads:
`?` on failure; otherwise succeed when the goals are exhausted, fail when
the candidates are (`cand_children.peek()?`, line 251), and iterate
otherwise. -/
def loop_after_probe (mc : Char) (gs cs : List Node)
    (r : Option Node × MetaVarEnv) : Option Unit × MetaVarEnv :=
  match r with
  | (none, env1) => (none, env1)
  | (some _, env1) =>
      match gs with
      | [] => (some (), env1)
      | g2 :: gs2 =>
          match cs with
          | [] => (none, env1)
          | c2 :: cs2 => match_nodes_loop mc (g2 :: gs2) (c2 :: cs2) env1
termination_by (size_list gs, cs.length, 5)
decreasing_by
  simp [Prod.lex_def, size_list]

/-- The `if goal_children.peek().is_none()` early return (lines 186-189,
with `skipped_anonymous = 0`) together with the
`while !goal_children.peek().unwrap().is_named()` loop of the ellipsis
branch (match_tree.rs, lines 186-204): skip unnamed goals, counting them in
`skipped_anonymous`; when the goals run out the ellipsis takes all remaining
candidates. -/
def skip_loop (mc : Char) (optional_name : Option (List Char))
    (skipped_anonymous : Nat) (gs : List Node) (candidates : List Node)
    (env : MetaVarEnv) : Option Unit × MetaVarEnv :=
  match gs with
  | [] =>
      (some (), update_ellipsis_env optional_name [] env candidates
        skipped_anonymous)
  | kg :: kgs =>
      if kg.is_named then
        skip_kept mc optional_name skipped_anonymous
          (try_get_ellipsis_mode mc kg) kg kgs candidates env
      else skip_loop mc optional_name (skipped_anonymous + 1) kgs candidates env
termination_by (size_list gs, candidates.length, 4)
decreasing_by
  · -- the kept goal has been found
    simp [Prod.lex_def, size_list]
  · -- skip one unnamed goal
    simp [Prod.lex_def, size_list]

/-- The ellipsis branch once the kept (named) goal is known (match_tree.rs,
lines 205-238): if that goal is itself an ellipsis, consume exactly one
candidate as separator and re-enter the outer loop (with fewer than two
candidates, the loop invariant or `cand_children.peek()?` on line 208 fails
without recording the capture); otherwise run the greedy scan. -/
def skip_kept (mc : Char) (optional_name : Option (List Char))
    (skipped_anonymous : Nat) (ell : Option (Option (List Char))) (kg : Node)
    (kgs : List Node) (candidates : List Node) (env : MetaVarEnv) :
    Option Unit × MetaVarEnv :=
  match ell with
  | some _ =>
      match candidates with
      | c :: c2 :: cs2 =>
          match_nodes_loop mc (kg :: kgs) (c2 :: cs2)
            (update_ellipsis_env optional_name [c] env [] skipped_anonymous)
      | _ => (none, env)
  | none =>
      -- greedy scan (lines 218-238)
      greedy_scan mc kg kgs optional_name skipped_anonymous [] candidates env
termination_by (size_list (kg :: kgs), candidates.length, 3)
decreasing_by
  · -- separator step: one candidate is consumed
    simp [Prod.lex_def, size_list]
  · -- hand over to the greedy scan
    simp [Prod.lex_def, size_list]
    omega

/-- The inner greedy-scan `loop` of the ellipsis branch (match_tree.rs,
lines 218-238): push candidates into `matched` until the kept goal `kg`
matches the current candidate; then record the ellipsis capture and fall
through to the normal step of the outer loop (modelled as re-entering
`match_nodes_loop`, which takes the normal branch because `kg` is not an
ellipsis). -/
def greedy_scan (mc : Char) (kg : Node) (kgs : List Node)
    (optional_name : Option (List Char)) (k : Nat) (matched : List Node)
    (candidates : List Node) (env : MetaVarEnv) : Option Unit × MetaVarEnv :=
  match candidates with
  | [] => (none, env)  -- unreachable: non-empty at every call site
  | c :: cs =>
      let r := match_node_non_recursive mc kg c env
      if r.1.isSome then
        match_nodes_loop mc (kg :: kgs) (c :: cs)
          (update_ellipsis_env optional_name matched r.2 [] k)
      else
        match cs with
        | [] => (none, r.2)  -- cand_children.peek()? (line 237)
        | c2 :: cs2 =>
            greedy_scan mc kg kgs optional_name k (matched ++ [c]) (c2 :: cs2) r.2
termination_by (Node.size kg + size_list kgs + 1, candidates.length, 1)
decreasing_by
  · -- probe the kept goal against the current candidate
    simp [Prod.lex_def]
    omega
  · -- fall through to the outer loop at the kept goals
    simp [Prod.lex_def, size_list]
    omega
  · -- consume one candidate and keep scanning
    simp [Prod.lex_def]
end

/-! ## The string template interpolator (`crates/core/src/replacer.rs`) -/

theorem length_dropWhile_le {α : Type} (p : α → Bool) (l : List α) :
    (l.dropWhile p).length ≤ l.length := by
  induction l with
  | nil => simp
  | cons x xs ih =>
      simp only [List.dropWhile]
      split
      · simp only [List.length_cons]
        omega
      · simp

theorem split_first_meta_var_rest_lt {src : List Char} {mc : Char}
    {a b : List Char} (h : split_first_meta_var src mc = some (a, b)) :
    b.length < src.length := by
  match src with
  | [] => simp [split_first_meta_var] at h
  | c :: rest =>
      simp only [split_first_meta_var] at h
      split at h
      · simp only [Option.some.injEq, Prod.mk.injEq] at h
        have h1 := length_dropWhile_le is_valid_meta_var_char rest
        rw [h.2] at h1
        simp only [List.length_cons]
        omega
      · simp at h

/-- `replace_meta_var_in_string` (replacer.rs, lines 113-131): scan for the
meta character (`template.find(mv_char)` = the split into `takeWhile`
and `dropWhile`), copy the scanned prefix, split off the first
metavariable name, emit the bound single capture's text if the name is in
the environment (and nothing otherwise), and continue on the remainder. -/
def replace_meta_var_in_string (template : List Char) (env : MetaVarEnv)
    (mc : Char) : List Char :=
  match h : template.dropWhile (fun c => c ≠ mc) with
  | [] => template  -- no meta character left: copy the rest verbatim
  | c :: rest =>
      let pre := template.takeWhile (fun c => c ≠ mc)
      match h2 : split_first_meta_var (c :: rest) mc with
      | some (meta_var, remaining) =>
          pre ++ (match env.get_match meta_var with
                  | some n => n.text
                  | none => []) ++ replace_meta_var_in_string remaining env mc
      | none => pre  -- unreachable: `dropWhile` stops at the meta character,
                     -- so the assertion in `split_first_meta_var` holds
termination_by template.length
decreasing_by
  have h1 := split_first_meta_var_rest_lt h2
  have h3 := length_dropWhile_le (fun c => decide (c ≠ mc)) template
  rw [h] at h3
  simp only [List.length_cons] at h1 h3 ⊢
  omega

/-! ## Relational search bounds (`crates/config/src/relational_rule/stop_by.rs`) -/

/-- `StopBy` (stop_by.rs, lines 58-62). The `Rule` variant carries a
compiled rule; `Node::matches(rule)` dispatches into matcher code that is
not under `src/`, so the rule is abstracted as the boolean predicate it
computes on a node. -/
inductive StopBy where
  | Neighbor
  | End
  | Rule (stop : Node → Bool)

/-- The stateful closure `inclusive_until` (stop_by.rs, lines 93-103)
composed with `Iterator::take_while` (line 88): keep elements while the
sentinel rule has not yet matched, including the first element on which it
matches. -/
def inclusive_until (rule : Node → Bool) : List Node → List Node
  | [] => []
  | x :: xs => if rule x then [x] else x :: inclusive_until rule xs

/-- `StopBy::find` (stop_by.rs, lines 78-91). -/
def StopBy.find (sb : StopBy) (iter : List Node)
    (finder : Node → Option Node) : Option Node :=
  match sb with
  | .End => iter.findSome? finder
  | .Neighbor =>
      match iter with
      | [] => none  -- `iter.next()?`
      | x :: _ => finder x
  | .Rule stop => (inclusive_until stop iter).findSome? finder

/-! ## Rule object deserialization (`crates/config/src/rule.rs`) -/

/-- The recognized field keys of `SerializableRule` (rule.rs, lines 14-42):
three atomic, four relational, four composite. -/
def rule_fields : List String :=
  ["pattern", "kind", "regex", "inside", "has", "precedes", "follows",
   "all", "any", "not", "matches"]

/-- `SerializableRule` (rule.rs, lines 12-42), modelled at the level of
field presence: every field is a `Maybe` defaulting to absent, so what
deserialization determines is which recognized keys occurred. -/
structure SerializableRule where
  pattern : Bool
  kind : Bool
  regex : Bool
  inside : Bool
  has : Bool
  precedes : Bool
  follows : Bool
  all : Bool
  any : Bool
  not : Bool
  «matches» : Bool
deriving DecidableEq, Repr

/-- Deserialization of a rule object from its list of field keys, as derived
by `#[derive(Deserialize)]` with `#[serde(deny_unknown_fields)]` and
all-defaultable fields (rule.rs, lines 12-42): it fails on any unrecognized
key and otherwise records every present key; field values are assumed
well-formed (they are not modelled). -/
def deserialize_serializable_rule (keys : List String) :
    Option SerializableRule :=
  if keys.all (fun k => rule_fields.contains k) then
    some {
      pattern := keys.contains "pattern"
      kind := keys.contains "kind"
      regex := keys.contains "regex"
      inside := keys.contains "inside"
      has := keys.contains "has"
      precedes := keys.contains "precedes"
      follows := keys.contains "follows"
      all := keys.contains "all"
      any := keys.contains "any"
      not := keys.contains "not"
      «matches» := keys.contains "matches"
    }
  else none

/-! ## Helper lemmas -/

theorem assoc_lookup_insert_self {α : Type} (key : List Char) (v : α)
    (l : List (List Char × α)) :
    assoc_lookup key (assoc_insert key v l) = some v := by
  induction l with
  | nil => simp [assoc_insert, assoc_lookup]
  | cons p rest ih =>
      obtain ⟨k0, v0⟩ := p
      simp only [assoc_insert]
      by_cases hk : k0 = key
      · simp [hk, assoc_lookup]
      · simp [hk, assoc_lookup, ih]

theorem assoc_lookup_insert_ne {α : Type} {key key' : List Char} (v : α)
    (l : List (List Char × α)) (hne : key' ≠ key) :
    assoc_lookup key' (assoc_insert key v l) = assoc_lookup key' l := by
  have hne' : ¬ key = key' := fun h => hne h.symm
  induction l with
  | nil => simp [assoc_insert, assoc_lookup, hne']
  | cons p rest ih =>
      obtain ⟨k0, v0⟩ := p
      simp only [assoc_insert]
      by_cases hk : k0 = key
      · subst hk
        simp only [if_pos rfl, assoc_lookup, if_neg hne']
      · simp only [if_neg hk, assoc_lookup, ih]

theorem assoc_lookup_eq_none_iff {α : Type} (key : List Char)
    (l : List (List Char × α)) :
    assoc_lookup key l = none ↔ ∀ p ∈ l, p.1 ≠ key := by
  induction l with
  | nil => simp [assoc_lookup]
  | cons p rest ih =>
      obtain ⟨k0, v0⟩ := p
      by_cases hk : k0 = key
      · subst hk
        constructor
        · intro h
          simp [assoc_lookup] at h
        · intro h
          have := h (k0, v0) (List.mem_cons_self _ _)
          simp at this
      · simp only [assoc_lookup, if_neg hk, ih, List.mem_cons]
        constructor
        · intro h p hp
          rcases hp with hp | hp
          · rw [hp]
            exact hk
          · exact h p hp
        · intro h p hp
          exact h p (Or.inr hp)

theorem head_dropWhile_not {α : Type} (p : α → Bool) (l : List α) (a : α)
    (h : (l.dropWhile p).head? = some a) : p a = false := by
  induction l with
  | nil => simp [List.dropWhile] at h
  | cons x xs ih =>
      simp only [List.dropWhile] at h
      by_cases hp : p x
      · rw [hp] at h
        exact ih h
      · rw [Bool.of_not_eq_true hp] at h
        simp at h
        rw [← h]
        exact Bool.of_not_eq_true hp

theorem takeWhile_append_all {α : Type} (p : α → Bool) (l1 l2 : List α)
    (h : ∀ x ∈ l1, p x = true) :
    (l1 ++ l2).takeWhile p = l1 ++ l2.takeWhile p := by
  induction l1 with
  | nil => simp
  | cons x xs ih =>
      have hx := h x (by simp)
      simp only [List.cons_append, List.takeWhile, hx, List.append_eq]
      rw [ih (fun y hy => h y (by simp [hy]))]

theorem dropWhile_append_all {α : Type} (p : α → Bool) (l1 l2 : List α)
    (h : ∀ x ∈ l1, p x = true) :
    (l1 ++ l2).dropWhile p = l2.dropWhile p := by
  induction l1 with
  | nil => simp
  | cons x xs ih =>
      have hx := h x (by simp)
      simp only [List.cons_append, List.dropWhile, hx, List.append_eq]
      exact ih (fun y hy => h y (by simp [hy]))

theorem takeWhile_eq_nil_of_head_not {α : Type} (p : α → Bool) (l : List α)
    (h : ∀ a, l.head? = some a → p a = false) :
    l.takeWhile p = [] := by
  cases l with
  | nil => simp
  | cons x xs =>
      have := h x rfl
      simp [List.takeWhile, this]

theorem dropWhile_eq_self_of_head_not {α : Type} (p : α → Bool) (l : List α)
    (h : ∀ a, l.head? = some a → p a = false) :
    l.dropWhile p = l := by
  cases l with
  | nil => simp
  | cons x xs =>
      have := h x rfl
      simp [List.dropWhile, this]

theorem dropWhile_eq_nil_of_all {α : Type} (p : α → Bool) (l : List α)
    (h : ∀ x ∈ l, p x = true) :
    l.dropWhile p = [] := by
  induction l with
  | nil => simp
  | cons x xs ih =>
      have hx := h x (by simp)
      simp only [List.dropWhile, hx]
      exact ih (fun y hy => h y (by simp [hy]))

/-! ## Unfolding lemmas for the matcher loop and the interpolator -/

theorem replace_no_meta_char (template : List Char) (env : MetaVarEnv)
    (mc : Char) (h : ∀ ch ∈ template, ch ≠ mc) :
    replace_meta_var_in_string template env mc = template := by
  rw [replace_meta_var_in_string.eq_def]
  have hd : template.dropWhile (fun c => decide (c ≠ mc)) = [] :=
    dropWhile_eq_nil_of_all _ _ (fun x hx => by simp [h x hx])
  split
  · rfl
  · rename_i c rest heq
    rw [hd] at heq
    simp at heq

theorem replace_step (template pre tail : List Char) (env : MetaVarEnv)
    (mc : Char)
    (hsplit : template = pre ++ mc :: tail)
    (hpre : ∀ ch ∈ pre, ch ≠ mc) :
    replace_meta_var_in_string template env mc
      = pre ++ (match env.get_match (tail.takeWhile is_valid_meta_var_char) with
                | some n => n.text
                | none => [])
          ++ replace_meta_var_in_string (tail.dropWhile is_valid_meta_var_char)
              env mc := by
  have hd : template.dropWhile (fun c => decide (c ≠ mc)) = mc :: tail := by
    rw [hsplit, dropWhile_append_all _ _ _ (fun x hx => by simp [hpre x hx])]
    simp [List.dropWhile]
  have ht : template.takeWhile (fun c => decide (c ≠ mc)) = pre := by
    rw [hsplit, takeWhile_append_all _ _ _ (fun x hx => by simp [hpre x hx])]
    simp [List.takeWhile]
  rw [replace_meta_var_in_string.eq_def]
  split
  · rename_i heq
    rw [hd] at heq
    simp at heq
  · rename_i c rest heq
    rw [hd] at heq
    injection heq with hc hrest
    subst hc
    subst hrest
    split
    · rename_i meta_var remaining heq2
      simp only [split_first_meta_var, if_true, eq_self_iff_true,
        Option.some.injEq, Prod.mk.injEq, if_pos] at heq2
      obtain ⟨h21, h22⟩ := heq2
      rw [ht, ← h21, ← h22]
    · rename_i heq2
      simp [split_first_meta_var] at heq2


/-! ## Claim C2: the metavariable lexing grammar -/

/-- The decoding grammar exactly as claim C2 states it: `Ellipsis` when the
text is the meta character repeated three times; with a three-fold meta
prefix and a non-empty remainder, `None` unless the remainder is all
`[A-Z_]`, then `Ellipsis` on a leading underscore and `NamedEllipsis`
otherwise; with a single meta prefix, `None` unless the remainder is all
`[A-Z_]`, then `Anonymous` on a leading underscore and `Named` otherwise;
`None` in all other cases. -/
def extract_meta_var_claim (s : List Char) (c : Char) : Option MetaVariable :=
  if s = List.replicate 3 c then some .ellipsis
  else if s.take 3 = List.replicate 3 c then
    let r := s.drop 3
    if r.all is_valid_meta_var_char then
      if starts_with_underscore r then some .ellipsis
      else some (.namedEllipsis r)
    else none
  else if s.take 1 = [c] then
    let r := s.drop 1
    if r.all is_valid_meta_var_char then
      if starts_with_underscore r then some .anonymous
      else some (.named r)
    else none
  else none

/-- C2: for every string `s` and meta character `c`, `extract_meta_var`
agrees with the case analysis stated in the claim, and in particular decodes
`"$$$"`, `"$A"`, `"$$$A"`, `"$_"`, `"$abc"` and `"abc"` as the claim lists
them. -/
theorem extract_meta_var_agrees_with_grammar :
    (∀ (s : List Char) (c : Char),
        extract_meta_var s c = extract_meta_var_claim s c)
    ∧ extract_meta_var ['$', '$', '$'] '$' = some .ellipsis
    ∧ extract_meta_var ['$', 'A'] '$' = some (.named ['A'])
    ∧ extract_meta_var ['$', '$', '$', 'A'] '$' = some (.namedEllipsis ['A'])
    ∧ extract_meta_var ['$', '_'] '$' = some .anonymous
    ∧ extract_meta_var ['$', 'a', 'b', 'c'] '$' = none
    ∧ extract_meta_var ['a', 'b', 'c'] '$' = none := by
  refine ⟨?_, by decide, by decide, by decide, by decide, by decide, by decide⟩
  have hbranch : ∀ (t : List Char) (x y : Option MetaVariable),
      (if ¬ (t.all is_valid_meta_var_char) = true then none
       else if starts_with_underscore t = true then x else y)
      = (if (t.all is_valid_meta_var_char) = true then
           if starts_with_underscore t = true then x else y
         else none) := by
    intro t x y
    cases t.all is_valid_meta_var_char <;> simp
  intro s c
  match s with
  | [] =>
      simp [extract_meta_var, extract_meta_var_claim, stripEllipsis,
        List.replicate]
  | [a] =>
      by_cases hac : a = c
      · subst hac
        simp only [extract_meta_var, extract_meta_var_claim, stripEllipsis,
          List.replicate, List.take, List.take_zero, List.drop]
        simp only [hbranch]
        simp
      · simp [extract_meta_var, extract_meta_var_claim, stripEllipsis,
          List.replicate, List.take, List.drop, hac]
  | [a, b] =>
      by_cases hac : a = c
      · subst hac
        simp only [extract_meta_var, extract_meta_var_claim, stripEllipsis,
          List.replicate, List.take, List.take_zero, List.drop]
        simp only [hbranch]
        simp
      · simp [extract_meta_var, extract_meta_var_claim, stripEllipsis,
          List.replicate, List.take, List.drop, hac]
  | a :: b :: d :: t =>
      by_cases habd : a = c ∧ b = c ∧ d = c
      · obtain ⟨ha, hb, hd⟩ := habd
        by_cases ht : t = []
        · subst ht
          simp [extract_meta_var, extract_meta_var_claim, stripEllipsis,
            List.replicate, ha, hb, hd]
        · have hne : a :: b :: d :: t ≠ List.replicate 3 c := by
            simp [List.replicate, ht]
          simp only [extract_meta_var, extract_meta_var_claim, stripEllipsis,
            List.replicate, List.take, List.take_zero, List.drop, if_neg hne,
            ha, hb, hd, and_self, if_true, if_pos rfl]
          simp only [hbranch]
      · have hne : a :: b :: d :: t ≠ List.replicate 3 c := by
          simp only [List.replicate, ne_eq, List.cons.injEq]
          intro hcontra
          exact habd ⟨hcontra.1, hcontra.2.1, hcontra.2.2.1⟩
        have htk : ¬ ((a :: b :: d :: t).take 3 = List.replicate 3 c) := by
          simp only [List.take, List.take_zero, List.replicate, List.cons.injEq]
          intro hcontra
          exact habd ⟨hcontra.1, hcontra.2.1, hcontra.2.2.1⟩
        by_cases hac : a = c
        · subst hac
          have hbd : ¬ (b = a ∧ d = a) := by
            intro hx
            exact habd ⟨rfl, hx.1, hx.2⟩
          simp only [extract_meta_var, extract_meta_var_claim, stripEllipsis,
            if_neg hne, if_neg htk, if_neg habd, List.take, List.take_zero,
            List.drop, ne_eq, not_true_eq_false, if_false, if_pos rfl]
          simp only [hbranch]
          simp [hbd]
        · simp [extract_meta_var, extract_meta_var_claim, stripEllipsis,
            hne, htk, habd, hac, List.take, List.drop]

/-! ## Claim C10: `split_first_meta_var` -/

/-- C10: whenever `src` starts with the meta character (the asserted
precondition), `split_first_meta_var` succeeds (the assertion failure branch
is unreachable) and returns a pair `(name, rest)` where `name` consists only
of `[A-Z_]` characters, `rest` does not start with such a character (so
`name` is the longest valid prefix), and `mc :: name ++ rest` reassembles
`src`. -/
theorem split_first_meta_var_correct (src : List Char) (mc : Char)
    (h : src.take 1 = [mc]) :
    ∃ name rest,
      split_first_meta_var src mc = some (name, rest)
      ∧ name.all is_valid_meta_var_char = true
      ∧ (∀ ch, rest.head? = some ch → is_valid_meta_var_char ch = false)
      ∧ mc :: (name ++ rest) = src := by
  match src with
  | [] => simp [List.take] at h
  | c :: t =>
      simp only [List.take, List.take_zero, List.cons.injEq, and_true] at h
      subst h
      refine ⟨t.takeWhile is_valid_meta_var_char,
        t.dropWhile is_valid_meta_var_char, ?_, ?_, ?_, ?_⟩
      · simp [split_first_meta_var]
      · rw [List.all_eq_true]
        intro x hx
        exact List.mem_takeWhile_imp hx
      · intro ch hch
        exact head_dropWhile_not _ _ _ hch
      · rw [List.takeWhile_append_dropWhile]

/-- Witness for C10 at the concrete input `"$AB-C"` with meta character
`$`. -/
theorem split_first_meta_var_correct_witness :
    (['$', 'A', 'B', '-', 'C'].take 1 = ['$'])
    ∧ (∃ name rest,
        split_first_meta_var ['$', 'A', 'B', '-', 'C'] '$' = some (name, rest)
        ∧ name.all is_valid_meta_var_char = true
        ∧ (∀ ch, rest.head? = some ch → is_valid_meta_var_char ch = false)
        ∧ '$' :: (name ++ rest) = ['$', 'A', 'B', '-', 'C']) :=
  ⟨by decide, split_first_meta_var_correct ['$', 'A', 'B', '-', 'C'] '$' (by decide)⟩


/-! ## Claims C4 and C5: `StopBy` bounds -/

/-- The elements that a `StopBy` bound submits to the finder, as claim C4
states them: only the first element for `Neighbor`; every element for
`End`; for `Rule stop`, the elements in order up to and including the first
one matching `stop`, and nothing after that sentinel. -/
def stop_by_scope : StopBy → List Node → List Node
  | .Neighbor, l => l.take 1
  | .End, l => l
  | .Rule stop, l =>
      l.takeWhile (fun n => !(stop n))
        ++ (l.dropWhile (fun n => !(stop n))).take 1

theorem inclusive_until_eq_scope (stop : Node → Bool) (l : List Node) :
    inclusive_until stop l
      = l.takeWhile (fun n => !(stop n))
          ++ (l.dropWhile (fun n => !(stop n))).take 1 := by
  induction l with
  | nil => simp [inclusive_until]
  | cons x xs ih =>
      by_cases hx : stop x
      · simp [inclusive_until, hx, List.takeWhile, List.dropWhile]
      · have hx' : (!(stop x)) = true := by simp [hx]
        simp only [inclusive_until, if_neg hx, List.takeWhile, List.dropWhile,
          hx', List.cons_append, ih]

/-- C4: `StopBy::find` tests exactly the elements delimited by the bound:
it equals a first-success search over `stop_by_scope`, which keeps only the
first element for `Neighbor`, all elements for `End`, and the elements up to
and including the first sentinel match for `Rule` (nothing after it). -/
theorem stop_by_find_tests_scope (sb : StopBy) (l : List Node)
    (finder : Node → Option Node) :
    StopBy.find sb l finder = (stop_by_scope sb l).findSome? finder := by
  match sb with
  | .End => rfl
  | .Neighbor =>
      cases l with
      | nil => simp [StopBy.find, stop_by_scope]
      | cons x xs =>
          simp only [StopBy.find, stop_by_scope, List.take, List.take_zero,
            List.findSome?]
          cases finder x <;> simp
  | .Rule stop =>
      simp only [StopBy.find, stop_by_scope]
      rw [inclusive_until_eq_scope]

/-- C5: whenever `stopBy: neighbor` finds a node on a sequence, `stopBy:
end` finds the same node on that sequence (neighbor-matches are a subset of
end-matches for an otherwise identical relation). -/
theorem stop_by_neighbor_subset_end (l : List Node)
    (finder : Node → Option Node) (n : Node)
    (h : StopBy.find .Neighbor l finder = some n) :
    StopBy.find .End l finder = some n := by
  cases l with
  | nil => simp [StopBy.find] at h
  | cons x xs =>
      simp only [StopBy.find] at h ⊢
      rw [List.findSome?]
      rw [h]

/-- Witness for C5 on a concrete one-element sequence with the identity
finder. -/
theorem stop_by_neighbor_subset_end_witness :
    (StopBy.find .Neighbor [Node.node 7 ['z'] true []] some
        = some (Node.node 7 ['z'] true []))
    ∧ StopBy.find .End [Node.node 7 ['z'] true []] some
        = some (Node.node 7 ['z'] true []) :=
  ⟨rfl, stop_by_neighbor_subset_end [Node.node 7 ['z'] true []] some
    (Node.node 7 ['z'] true []) rfl⟩

/-! ## Claim C6: rule object deserialization -/

/-- C6 counterexample: a rule object combining the two recognized keys
`pattern` and `inside` is accepted by deserialization, not rejected (the
source's own `test_augmentation` exercises exactly this). -/
theorem rule_multi_key_accepted_counterexample :
    (deserialize_serializable_rule ["pattern", "inside"]).isSome = true
    ∧ deserialize_serializable_rule ["pattern", "inside"] ≠ none := by
  constructor
  · decide
  · decide

/-- C6 amended: deserializing a rule object succeeds exactly when every key
is a recognized rule field; an unknown key is rejected, while any
combination of recognized keys (including several per object) is accepted
into a single rule node. -/
theorem rule_object_keys_amended (keys : List String) :
    (deserialize_serializable_rule keys).isSome = true
      ↔ ∀ k ∈ keys, k ∈ rule_fields := by
  simp only [deserialize_serializable_rule]
  by_cases h : keys.all (fun k => rule_fields.contains k)
  · simp only [if_pos h, Option.isSome_some, true_iff]
    intro k hk
    rw [List.all_eq_true] at h
    have := h k hk
    simpa using this
  · simp only [if_neg h, Option.isSome_none]
    constructor
    · intro hfalse
      exact absurd hfalse (by simp)
    · intro hcontra
      exfalso
      apply h
      rw [List.all_eq_true]
      intro k hk
      simpa using hcontra k hk


/-! ## Claim C1: back-reference semantics of `MetaVarEnv::insert` -/

/-- C1: if `id` is already bound to `m` in the single-capture map, then
inserting `id → n` succeeds iff `m` and `n` match exactly (equal kind id
recursively, equal text at named leaves, pairwise exactly-matching
children, per `does_node_match_exactly`); on mismatch the insertion returns
`none`, and a leaf metavariable goal whose insertion fails makes the whole
node match fail. -/
theorem meta_var_env_insert_back_reference (mc : Char) (env : MetaVarEnv)
    (id : List Char) (n m goal cand : Node)
    (hbound : assoc_lookup id env.single_matched = some m) :
    ((env.insert id n).isSome ↔ does_node_match_exactly m n = true)
    ∧ (does_node_match_exactly m n = false → env.insert id n = none)
    ∧ (goal.is_named_leaf = true →
       extract_var_from_node mc goal = some (.named id) →
       does_node_match_exactly m cand = false →
       (match_node_non_recursive mc goal cand env).1 = none) := by
  have hmv : ∀ x, env.match_variable id x = does_node_match_exactly m x := by
    intro x
    simp [MetaVarEnv.match_variable, hbound]
  refine ⟨?_, ?_, ?_⟩
  · rw [MetaVarEnv.insert, hmv]
    cases hd : does_node_match_exactly m n <;> simp
  · intro hd
    rw [MetaVarEnv.insert, hmv, hd]
    simp
  · intro hleaf hx hd
    have hins : env.insert id cand = none := by
      rw [MetaVarEnv.insert, hmv, hd]
      simp
    rw [match_node_non_recursive.eq_def]
    simp only [hleaf, if_true, match_leaf_meta_var, hx, hins]
    by_cases hk : goal.kind_id ≠ cand.kind_id
    · simp [hk]
    · simp [hk, hleaf, hx]

/-- Sample nodes and environments used by the concrete witnesses. -/
def nX : Node := .node 20 ['x'] true []

def nY : Node := .node 21 ['y'] true []

def goalA : Node := .node 99 ['$', 'A'] true []

def envA : MetaVarEnv := ⟨[(['A'], nX)], []⟩

/-- Witness for C1: `envA` binds `A` to the leaf `x`; re-inserting the same
node succeeds, and the matcher fails on a conflicting leaf `y`. -/
theorem meta_var_env_insert_back_reference_witness :
    (assoc_lookup ['A'] envA.single_matched = some nX)
    ∧ (((envA.insert ['A'] nX).isSome ↔ does_node_match_exactly nX nX = true)
       ∧ (does_node_match_exactly nX nX = false → envA.insert ['A'] nX = none)
       ∧ (goalA.is_named_leaf = true →
          extract_var_from_node '$' goalA = some (.named ['A']) →
          does_node_match_exactly nX nY = false →
          (match_node_non_recursive '$' goalA nY envA).1 = none)) :=
  ⟨rfl, meta_var_env_insert_back_reference '$' envA ['A'] nX nX goalA nY rfl⟩

/-! ## Claim C9: constraints apply only to single captures -/

theorem list_all_congr {α : Type} (l : List α) (f g : α → Bool)
    (h : ∀ x ∈ l, f x = g x) : l.all f = l.all g := by
  induction l with
  | nil => rfl
  | cons x xs ih =>
      simp only [List.all_cons, h x (by simp)]
      rw [ih (fun y hy => h y (by simp [hy]))]

/-- C9: `match_constraints` returns true iff every single capture whose id
has a matcher satisfies it; the multi-capture (ellipsis) map plays no part,
and a constraint on an id without a single capture is ignored. -/
theorem match_constraints_single_captures_only (env : MetaVarEnv)
    (var_matchers : List (List Char × (Node → Bool))) :
    (env.match_constraints var_matchers = true ↔
      ∀ p ∈ env.single_matched, ∀ matcher,
        assoc_lookup p.1 var_matchers = some matcher → matcher p.2 = true)
    ∧ (∀ multi1 multi2 : List (List Char × List Node),
        MetaVarEnv.match_constraints ⟨env.single_matched, multi1⟩ var_matchers
          = MetaVarEnv.match_constraints ⟨env.single_matched, multi2⟩
              var_matchers)
    ∧ (∀ (id : List Char) (matcher : Node → Bool),
        assoc_lookup id env.single_matched = none →
        env.match_constraints (assoc_insert id matcher var_matchers)
          = env.match_constraints var_matchers) := by
  refine ⟨?_, ?_, ?_⟩
  · rw [MetaVarEnv.match_constraints, List.all_eq_true]
    constructor
    · intro h p hp matcher hm
      have hb := h p hp
      rw [hm] at hb
      exact hb
    · intro h p hp
      cases hm : assoc_lookup p.1 var_matchers with
      | none => simp
      | some matcher =>
          exact h p hp matcher hm
  · intro m1 m2
    rfl
  · intro id matcher hid
    rw [MetaVarEnv.match_constraints, MetaVarEnv.match_constraints]
    apply list_all_congr
    intro p hp
    have hne : p.1 ≠ id := by
      rw [assoc_lookup_eq_none_iff] at hid
      exact hid p hp
    rw [assoc_lookup_insert_ne _ _ hne]

/-- Witness for C9: a constraint on the unconstrained id `C` (absent from
the single-capture map) does not change the verdict. -/
theorem match_constraints_single_captures_only_witness :
    (assoc_lookup ['C'] envA.single_matched = none)
    ∧ MetaVarEnv.match_constraints envA
        (assoc_insert ['C'] (fun _ => false)
          [(['A'], fun n => n.kind_id == 20)])
        = MetaVarEnv.match_constraints envA
            [(['A'], fun n => n.kind_id == 20)] :=
  ⟨rfl, (match_constraints_single_captures_only envA
      [(['A'], fun n => n.kind_id == 20)]).2.2 ['C'] (fun _ => false) rfl⟩


/-! ## Claim C3: sibling matching with an empty candidate sequence -/

/-- C3 counterexample: at the start of sibling matching with an empty
candidate sequence the match fails — both with empty goals and with a goal
sequence beginning with an (anonymous or named) ellipsis; in particular no
empty capture is bound for the named ellipsis. -/
theorem match_nodes_empty_candidates_counterexample :
    (match_nodes_non_recursive '$' [] [] MetaVarEnv.new).1 = none
    ∧ (match_nodes_non_recursive '$' [Node.node 10 ['$', '$', '$'] true []]
        [] MetaVarEnv.new).1 = none
    ∧ (match_nodes_non_recursive '$'
        [Node.node 10 ['$', '$', '$', 'A'] true []] [] MetaVarEnv.new).1 = none
    ∧ (match_nodes_non_recursive '$'
        [Node.node 10 ['$', '$', '$', 'A'] true []] [] MetaVarEnv.new).2
        = MetaVarEnv.new := by
  refine ⟨?_, ?_, ?_, ?_⟩ <;> rw [match_nodes_non_recursive.eq_def]

/-- C3 amended: at the start of sibling matching, an empty candidate
sequence makes the match fail immediately (`cand_children.peek()?` before
the loop), whatever the goal sequence is — including empty goals and goals
beginning with an ellipsis metavariable; the environment is returned
untouched. -/
theorem match_nodes_empty_candidates_amended (mc : Char) (goals : List Node)
    (env : MetaVarEnv) :
    match_nodes_non_recursive mc goals [] env = (none, env) := by
  rw [match_nodes_non_recursive.eq_def]

/-! ## Claim C7: the plain-string interpolator -/

/-- C7 counterexample: an unbound metavariable token is removed from the
output (the template `"$A"` with an empty environment yields the empty
string), not kept literally as the claim states. -/
theorem replace_unbound_token_dropped_counterexample :
    replace_meta_var_in_string ['$', 'A'] MetaVarEnv.new '$' = []
    ∧ ['$', 'A'] ≠ ([] : List Char) := by
  constructor
  · rw [replace_step ['$', 'A'] [] ['A'] MetaVarEnv.new '$' rfl (by simp)]
    have h1 : List.takeWhile is_valid_meta_var_char ['A'] = ['A'] := by decide
    have h2 : List.dropWhile is_valid_meta_var_char ['A'] = [] := by decide
    rw [h1, h2, replace_no_meta_char [] MetaVarEnv.new '$' (by simp)]
    rfl
  · decide

/-- C7 amended: the interpolator scans forward to the meta character,
copies all scanned (non-metavariable) text unchanged, splits off the
longest `[A-Z_]` name, substitutes the bound single capture's text when the
name is bound, **removes the metavariable token (emits nothing) when it is
unbound**, and repeats on the remainder; a template without the meta
character is copied unchanged. -/
theorem replace_meta_var_in_string_amended (mc : Char) (env : MetaVarEnv) :
    (∀ t : List Char, (∀ ch ∈ t, ch ≠ mc) →
        replace_meta_var_in_string t env mc = t)
    ∧ (∀ pre name rest : List Char,
        (∀ ch ∈ pre, ch ≠ mc) →
        name.all is_valid_meta_var_char = true →
        (∀ ch, rest.head? = some ch → is_valid_meta_var_char ch = false) →
        replace_meta_var_in_string (pre ++ mc :: (name ++ rest)) env mc
          = pre ++ (match env.get_match name with
                    | some nd => nd.text
                    | none => []) ++ replace_meta_var_in_string rest env mc) := by
  constructor
  · exact fun t ht => replace_no_meta_char t env mc ht
  · intro pre name rest hpre hname hrest
    rw [replace_step (pre ++ mc :: (name ++ rest)) pre (name ++ rest) env mc
      rfl hpre]
    have hnm : ∀ x ∈ name, is_valid_meta_var_char x = true := by
      rw [List.all_eq_true] at hname
      exact hname
    have h1 : (name ++ rest).takeWhile is_valid_meta_var_char = name := by
      rw [takeWhile_append_all _ _ _ hnm,
        takeWhile_eq_nil_of_head_not _ _ hrest, List.append_nil]
    have h2 : (name ++ rest).dropWhile is_valid_meta_var_char = rest := by
      rw [dropWhile_append_all _ _ _ hnm]
      exact dropWhile_eq_self_of_head_not _ _ hrest
    rw [h1, h2]

/-- Witness for C7 on the template `"a$A!"` against an environment binding
`A` to the leaf `x`: the output is `"ax!"`. -/
theorem replace_meta_var_in_string_amended_witness :
    ((∀ ch ∈ ['a'], ch ≠ '$')
     ∧ ['A'].all is_valid_meta_var_char = true
     ∧ (∀ ch, ['!'].head? = some ch → is_valid_meta_var_char ch = false))
    ∧ replace_meta_var_in_string (['a'] ++ '$' :: (['A'] ++ ['!'])) envA '$'
        = ['a'] ++ (match envA.get_match ['A'] with
                    | some nd => nd.text
                    | none => []) ++ replace_meta_var_in_string ['!'] envA '$' :=
  ⟨⟨by decide, by decide, by decide⟩,
   (replace_meta_var_in_string_amended '$' envA).2 ['a'] ['A'] ['!']
     (by decide) (by decide) (by decide)⟩


/-! ## Claim C8: ellipsis followed by another ellipsis -/

theorem match_nodes_loop_ellipsis_entry (mc : Char) (g : Node)
    (gs : List Node) (c : Node) (cs : List Node) (env : MetaVarEnv)
    (opt : Option (List Char))
    (h1 : try_get_ellipsis_mode mc g = some opt) :
    match_nodes_loop mc (g :: gs) (c :: cs) env
      = skip_loop mc opt 0 gs (c :: cs) env := by
  rw [match_nodes_loop.eq_def]
  simp only [h1]

theorem skip_loop_skip_unnamed (mc : Char) (opt : Option (List Char))
    (us : List Node) :
    ∀ (k : Nat) (tail cands : List Node) (env : MetaVarEnv),
      (∀ u ∈ us, u.is_named = false) →
      skip_loop mc opt k (us ++ tail) cands env
        = skip_loop mc opt (k + us.length) tail cands env := by
  induction us with
  | nil =>
      intro k tail cands env _
      simp
  | cons u us ih =>
      intro k tail cands env hus
      rw [List.cons_append, skip_loop.eq_def]
      have hu : u.is_named = false := hus u (by simp)
      simp only [hu, Bool.false_eq_true, if_false]
      rw [ih (k + 1) tail cands env (fun y hy => hus y (by simp [hy]))]
      have harith : k + 1 + us.length = k + (u :: us).length := by
        simp only [List.length_cons]
        omega
      rw [harith]

theorem skip_loop_separator (mc : Char) (opt opt2 : Option (List Char))
    (k : Nat) (kg : Node) (kgs : List Node) (c c2 : Node) (cs : List Node)
    (env : MetaVarEnv)
    (hkg : kg.is_named = true)
    (h3 : try_get_ellipsis_mode mc kg = some opt2) :
    skip_loop mc opt k (kg :: kgs) (c :: c2 :: cs) env
      = match_nodes_loop mc (kg :: kgs) (c2 :: cs)
          (update_ellipsis_env opt [c] env [] k) := by
  rw [skip_loop.eq_def]
  simp only [hkg, if_true, h3]
  rw [skip_kept.eq_def]

theorem update_ellipsis_env_named_lookup (name : List Char)
    (matched extra : List Node) (env : MetaVarEnv) (k : Nat) :
    assoc_lookup name
        (update_ellipsis_env (some name) matched env extra k).multi_matched
      = some ((matched ++ extra).take ((matched ++ extra).length - k)) := by
  simp only [update_ellipsis_env, MetaVarEnv.insert_multi, Option.getD_some]
  exact assoc_lookup_insert_self _ _ _

/-- C8 amended: when an ellipsis goal is followed, after skipping `us`
unnamed goal tokens, by another ellipsis goal, the first ellipsis consumes
exactly one candidate as separator and matching continues with the second
ellipsis; when the first ellipsis is named, the binding it receives is the
consumed candidate list truncated by the number of skipped unnamed tokens:
the consumed candidate itself when nothing was skipped, and the empty list
otherwise. -/
theorem ellipsis_separator_amended (mc : Char) (e1 kg : Node)
    (us kgs : List Node) (c c2 : Node) (cs : List Node) (env : MetaVarEnv)
    (opt1 opt2 : Option (List Char))
    (h1 : try_get_ellipsis_mode mc e1 = some opt1)
    (hus : ∀ u ∈ us, u.is_named = false)
    (hkg : kg.is_named = true)
    (h3 : try_get_ellipsis_mode mc kg = some opt2) :
    match_nodes_loop mc (e1 :: (us ++ kg :: kgs)) (c :: c2 :: cs) env
      = match_nodes_loop mc (kg :: kgs) (c2 :: cs)
          (update_ellipsis_env opt1 [c] env [] us.length)
    ∧ ∀ name, opt1 = some name →
        assoc_lookup name
          (update_ellipsis_env opt1 [c] env [] us.length).multi_matched
          = some ([c].take (1 - us.length)) := by
  constructor
  · rw [match_nodes_loop_ellipsis_entry mc e1 _ c (c2 :: cs) env opt1 h1]
    rw [skip_loop_skip_unnamed mc opt1 us 0 (kg :: kgs) (c :: c2 :: cs) env hus]
    rw [Nat.zero_add]
    exact skip_loop_separator mc opt1 opt2 us.length kg kgs c c2 cs env hkg h3
  · intro name hname
    subst hname
    have h := update_ellipsis_env_named_lookup name [c] [] env us.length
    simpa using h

/-- Concrete nodes for the C8 scenario `($$$A , $$$)` against `(x y)`. -/
def ellA : Node := .node 10 ['$', '$', '$', 'A'] true []

def commaTok : Node := .node 11 [','] false []

def ellAnon : Node := .node 10 ['$', '$', '$'] true []

def candX : Node := .node 20 ['x'] true []

def candY : Node := .node 20 ['y'] true []

/-- Witness for C8 at the concrete goals `[$$$A, ",", $$$]` and candidates
`[x, y]`: one unnamed token is skipped, so the named ellipsis is bound to
the empty truncation of the consumed candidate. -/
theorem ellipsis_separator_amended_witness :
    (try_get_ellipsis_mode '$' ellA = some (some ['A'])
     ∧ (∀ u ∈ [commaTok], u.is_named = false)
     ∧ ellAnon.is_named = true
     ∧ try_get_ellipsis_mode '$' ellAnon = some none)
    ∧ (match_nodes_loop '$' (ellA :: ([commaTok] ++ ellAnon :: []))
          (candX :: candY :: []) MetaVarEnv.new
        = match_nodes_loop '$' (ellAnon :: []) (candY :: [])
            (update_ellipsis_env (some ['A']) [candX] MetaVarEnv.new []
              [commaTok].length)
       ∧ ∀ name, (some ['A'] : Option (List Char)) = some name →
          assoc_lookup name
            (update_ellipsis_env (some ['A']) [candX] MetaVarEnv.new []
              [commaTok].length).multi_matched
            = some ([candX].take (1 - [commaTok].length))) :=
  ⟨⟨rfl, by
      intro u hu
      rw [List.mem_singleton] at hu
      subst hu
      rfl, rfl, rfl⟩,
   ellipsis_separator_amended '$' ellA ellAnon [commaTok] [] candX candY []
     MetaVarEnv.new (some ['A']) none rfl
     (by
       intro u hu
       rw [List.mem_singleton] at hu
       subst hu
       rfl) rfl rfl⟩

/-- C8 counterexample: with goals `[$$$A, ",", $$$]` (one unnamed token
between the two ellipses) and candidates `[x, y]`, the sibling match
succeeds but binds `A` to the empty list, not to the consumed candidate
`x` as the claim states. -/
theorem ellipsis_separator_counterexample :
    (match_nodes_non_recursive '$' [ellA, commaTok, ellAnon] [candX, candY]
        MetaVarEnv.new).1 = some ()
    ∧ assoc_lookup ['A']
        (match_nodes_non_recursive '$' [ellA, commaTok, ellAnon]
          [candX, candY] MetaVarEnv.new).2.multi_matched = some []
    ∧ ¬ (assoc_lookup ['A']
          (match_nodes_non_recursive '$' [ellA, commaTok, ellAnon]
            [candX, candY] MetaVarEnv.new).2.multi_matched
          = some [candX]) := by
  have henv1 : update_ellipsis_env (some ['A']) [candX] MetaVarEnv.new [] 1
      = ⟨[], [(['A'], [])]⟩ := rfl
  have hrun : match_nodes_non_recursive '$' [ellA, commaTok, ellAnon]
      [candX, candY] MetaVarEnv.new
      = (some (), ⟨[], [(['A'], [])]⟩) := by
    rw [match_nodes_non_recursive.eq_def]
    show match_nodes_loop '$' [ellA, commaTok, ellAnon] [candX, candY]
        MetaVarEnv.new = _
    rw [match_nodes_loop_ellipsis_entry '$' ellA _ candX [candY]
      MetaVarEnv.new (some ['A']) rfl]
    rw [show [commaTok, ellAnon] = [commaTok] ++ ellAnon :: [] from rfl]
    rw [skip_loop_skip_unnamed '$' (some ['A']) [commaTok] 0 (ellAnon :: [])
      (candX :: candY :: []) MetaVarEnv.new
      (by
        intro u hu
        rw [List.mem_singleton] at hu
        subst hu
        rfl)]
    rw [skip_loop_separator '$' (some ['A']) none (0 + [commaTok].length)
      ellAnon [] candX candY [] MetaVarEnv.new rfl rfl]
    show match_nodes_loop '$' [ellAnon] [candY]
        (update_ellipsis_env (some ['A']) [candX] MetaVarEnv.new [] 1) = _
    rw [henv1]
    rw [match_nodes_loop_ellipsis_entry '$' ellAnon [] candY []
      ⟨[], [(['A'], [])]⟩ none rfl]
    rw [skip_loop.eq_def]
    rfl
  rw [hrun]
  refine ⟨rfl, rfl, ?_⟩
  intro hcontra
  simp [assoc_lookup] at hcontra


end AstGrep
